import Mathlib

/-!
Verification of the adaptive mirror-benchmarking core of `tools/mirrorlist.py`.

The development shallowly embeds the per-candidate statistics record
(`MirrorStats`), its recomputation routine (`refresh_stats`), the probe
bookkeeping (`fetch_file`), the batch loop (`fetch_many`), and the binary-heap
priority queue used by the scheduler loop in `main` (CPython's `heapq`
module: `heapify`, `heappush`, `heappop`, with the `_siftup` / `_siftdown`
helpers translated line by line).

Modelling conventions:
* Python floats are modelled as exact rationals (`ℚ`); the verified claims
  concern control flow, exact algebraic identities and ordering, not
  floating-point rounding.
* Python byte counts (`len(data)`, arbitrary-precision ints) are embedded
  into `ℚ` so that the mixed arithmetic of `refresh_stats` stays in one type.
* `math.sqrt` (used only inside the upper-bound bonus term) is an arbitrary
  parameter `sq : ℚ → ℚ`; every theorem is proved for all choices of `sq`.
* Exceptions are explicit: heap operations return `Except PyErr _`, where
  `PyErr.typeError` models the `TypeError` raised when a tuple comparison
  falls through to the unordered `MirrorStats` objects, and
  `PyErr.indexError` models `heappop` on an empty list.
* `statistics.linear_regression(xs, ys, proportional=True)` is embedded by
  its CPython implementation: slope = Σxy / Σx², raising `StatisticsError`
  when fewer than two points are given or Σx² = 0.
-/

namespace Mirrorlist

/-- Stand-in for `aiohttp.ClientError` values recorded in the error history.
Only their identity matters to the claims, not their contents. -/
structure ClientError where
  code : Nat
deriving DecidableEq

/-- The mutable statistics record of `class MirrorStats` (mirrorlist.py,
lines 109-133).  The immutable `Mirror` record it references is irrelevant
to every claim verified here and is represented by an opaque identifier
`mirror` (it also serves as the Python object identity of the record). -/
structure MirrorStats where
  mirror : Nat
  /-- Response body sizes in bytes (`self.lens`). -/
  lens : List ℚ
  /-- Request durations in seconds (`self.dt_secs`). -/
  dt_secs : List ℚ
  /-- Errors observed while measuring (`self.errors`). -/
  errors : List ClientError
  /-- Observed request latency in seconds (`self.latency_secs = 1.0`). -/
  latency_secs : ℚ
  /-- Download throughput in bytes per second (`self.rate_bps = 0.0`). -/
  rate_bps : ℚ
  /-- Optimistic estimate of the throughput (`self.rate_bps_upper = 1.0`). -/
  rate_bps_upper : ℚ
deriving DecidableEq

/-- `MirrorStats.__init__` (lines 114-133): empty sample and error
sequences, latency 1.0, point-estimate 0.0, upper bound 1.0. -/
def mkMirrorStats (m : Nat) : MirrorStats :=
  { mirror := m
    lens := []
    dt_secs := []
    errors := []
    latency_secs := 1
    rate_bps := 0
    rate_bps_upper := 1 }

/-- Python's `min` on a list (raises on `[]`; `refresh_stats` only calls it
behind the `len(self.lens) < 2` guard, and under the length invariant the
list is then nonempty, so the default 0 for `[]` is never exercised there). -/
def listMin (l : List ℚ) : ℚ :=
  match l with
  | [] => 0
  | x :: xs => xs.foldl min x

/-- The qualifying `(size, duration)` pairs of the regression in
`refresh_stats` (lines 151-156): samples paired positionally by `zip`,
keeping those whose byte count exceeds 1000. -/
def qualifyingPoints (s : MirrorStats) : List (ℚ × ℚ) :=
  (s.lens.zip s.dt_secs).filter (fun p => 1000 < p.1)

/-- Numerator Σ xᵢ·yᵢ of the proportional regression slope, with
yᵢ = dtᵢ − latency as built in the loop at lines 153-156. -/
def slopeNum (latency : ℚ) (pts : List (ℚ × ℚ)) : ℚ :=
  (pts.map (fun p => p.1 * (p.2 - latency))).sum

/-- Denominator Σ xᵢ² of the proportional regression slope. -/
def slopeDen (pts : List (ℚ × ℚ)) : ℚ :=
  (pts.map (fun p => p.1 * p.1)).sum

/-- `MirrorStats.refresh_stats` (lines 135-177), parameterised by the
square-root routine `sq` standing in for `math.sqrt`.

* Fewer than two recorded samples: return the record unchanged.
* Otherwise latency := min duration; fit the proportional regression over
  the qualifying points; `statistics.linear_regression` raises
  `StatisticsError` precisely when fewer than two qualifying points exist
  or Σx² = 0 (vacuous here since qualifying sizes exceed 1000), in which
  case the fallback `self.lens[0] / latency` is used (line 164).
* Finally the residuals `dx/dt - rate`, their variance with denominator
  `len(diffs) - 1`, and the upper bound
  `rate + sqrt(variance)/n + 100e6/n` (lines 173-177).

Divisions are total (`q / 0 = 0` in `ℚ`); the companion predicate
`refreshDivOk` records which denominators the Python code actually
divides by, so division-by-zero claims are stated against it. -/
def refresh_stats (sq : ℚ → ℚ) (s : MirrorStats) : MirrorStats :=
  if s.lens.length < 2 then s
  else
    let latency := listMin s.dt_secs
    let pts := qualifyingPoints s
    let rate :=
      if pts.length < 2 ∨ slopeDen pts = 0 then s.lens.headD 0 / latency
      else 1 / (slopeNum latency pts / slopeDen pts)
    let diffs := (s.lens.zip s.dt_secs).map (fun p => p.1 / p.2 - rate)
    let variance := (diffs.map (fun d => d * d)).sum / ((diffs.length : ℚ) - 1)
    { s with
      rate_bps := rate
      latency_secs := latency
      rate_bps_upper :=
        rate + sq variance / (diffs.length : ℚ) + 100000000 / (diffs.length : ℚ) }

/-- Does every division performed by `refresh_stats` (outside
`statistics.linear_regression`, whose internal zero-denominator case is
converted to the caught `StatisticsError`) have a nonzero denominator?
The conjuncts correspond, in order, to: `1.0 / slope` (line 158) or the
fallback `self.lens[0] / latency` (line 164); the residuals `dx / dt`
(line 173); and the variance denominator `len(diffs) - 1` (line 174). -/
def refreshDivOk (s : MirrorStats) : Bool :=
  if s.lens.length < 2 then true
  else
    let latency := listMin s.dt_secs
    let pts := qualifyingPoints s
    let pairs := s.lens.zip s.dt_secs
    (if pts.length < 2 ∨ slopeDen pts = 0 then decide (latency ≠ 0)
     else decide (slopeNum latency pts / slopeDen pts ≠ 0)) &&
      pairs.all (fun p => decide (p.2 ≠ 0)) &&
      decide (((pairs.length : ℚ) - 1) ≠ 0)

/-- Outcome of one probe, as produced by the external fetch primitive
inside `MirrorStats._fetch_file` (lines 191-206): either a successful
measurement (body size, duration) or a transport error. -/
inductive ProbeResult where
  | success (len : ℚ) (dt : ℚ)
  | failure (e : ClientError)
deriving DecidableEq

/-- `MirrorStats._fetch_file` (lines 191-206), with the network effect
abstracted into the `ProbeResult`: a successful fetch appends the byte
count and the duration (lines 202-203); a `ClientError` is caught and
appended to the error history (lines 205-206), touching nothing else. -/
def fetch_file (s : MirrorStats) (r : ProbeResult) : MirrorStats :=
  match r with
  | .success len dt => { s with lens := s.lens ++ [len], dt_secs := s.dt_secs ++ [dt] }
  | .failure e => { s with errors := s.errors ++ [e] }

/-- One observable step in the life of a candidate record: a probe
(`fetch_file`) or a recomputation (`refresh_stats`). -/
inductive Event where
  | probe (r : ProbeResult)
  | refresh
deriving DecidableEq

/-- Run a sequence of events against a candidate record. -/
def runEvents (sq : ℚ → ℚ) (s : MirrorStats) (evs : List Event) : MirrorStats :=
  evs.foldl
    (fun s e =>
      match e with
      | .probe r => fetch_file s r
      | .refresh => refresh_stats sq s)
    s

/-- `fetch_many` (lines 240-257) as observed by one mirror: per repetition
the mirror receives exactly one probe outcome (the shuffle at line 250
permutes only the task-creation order across mirrors and the sleep only
delays; neither changes the per-mirror sequence of outcomes), and
`refresh_stats` runs once per mirror only after the repetition loop ends
(lines 256-257). -/
def fetch_many (sq : ℚ → ℚ) (s : MirrorStats) (batches : List ProbeResult) : MirrorStats :=
  refresh_stats sq (batches.foldl fetch_file s)

/-- Python exceptions surfaced by the scheduler's heap operations. -/
inductive PyErr where
  | typeError
  | indexError
deriving DecidableEq

/-- A priority-queue entry as built at line 302: `(-m.rate_bps_upper, m)`. -/
abbrev Entry := ℚ × MirrorStats

/-- Default entry for out-of-range reads; every read in the heap routines
is index-checked, so it is never produced by a verified operation. -/
def dEntry : Entry := (0, mkMirrorStats 0)

/-- Python's `<` on two queue entries.  Tuples compare lexicographically:
distinct first components decide the result; equal first components fall
through to `MirrorStats.__lt__`, which does not exist, raising `TypeError`.
(The two stats objects in a comparison are always distinct Python objects
in this program - an object is popped before it is ever re-inserted - so
the identity-equality shortcut of tuple comparison never applies.) -/
def entryLt (a b : Entry) : Except PyErr Bool :=
  if a.1 < b.1 then .ok true
  else if b.1 < a.1 then .ok false
  else .error .typeError

/-- Parent index in the array-encoded binary heap. -/
def anc (j : Nat) : Nat := (j - 1) / 2

/-- Key of the entry at index `j`. -/
def keyAt (h : List Entry) (j : Nat) : ℚ := (h.getD j dEntry).1

/-- Membership of `j` in the subtree rooted at `r` of the array-encoded
binary heap: some number of parent steps from `j` reaches `r`. -/
def inSub (r j : Nat) : Prop := ∃ m, anc^[m] j = r

/-- The min-heap invariant maintained by `heapq`: every non-root entry is
at least its parent. -/
def HeapProp (h : List Entry) : Prop :=
  ∀ j ∈ List.range h.length, 0 < j → keyAt h (anc j) ≤ keyAt h j

/-- The loop of CPython's `heapq._siftdown(heap, startpos, pos)`: bubble
the hole at `pos` up towards `startpos` while `newitem` compares below the
parent (`parentpos = (pos - 1) >> 1` is inlined here); the caller writes
`newitem` into the final position. -/
def siftdownLoop (heap : List Entry) (startpos pos : Nat) (newitem : Entry) :
    Except PyErr (List Entry × Nat) :=
  if _hs : startpos < pos then
    match entryLt newitem (heap.getD ((pos - 1) / 2) dEntry) with
    | .error e => .error e
    | .ok true =>
      siftdownLoop (heap.set pos (heap.getD ((pos - 1) / 2) dEntry)) startpos
        ((pos - 1) / 2) newitem
    | .ok false => .ok (heap, pos)
  else .ok (heap, pos)
termination_by pos
decreasing_by omega

/-- CPython's `heapq._siftdown(heap, startpos, pos)`: `newitem = heap[pos]`
is read once, the loop moves parents down, and `newitem` is written into
the final position. -/
def siftdown (heap : List Entry) (startpos pos : Nat) : Except PyErr (List Entry) :=
  match siftdownLoop heap startpos pos (heap.getD pos dEntry) with
  | .error e => .error e
  | .ok (h, p) => .ok (h.set p (heap.getD pos dEntry))

/-- The child-selection step of `heapq._siftup`: pick the right child
exactly when it exists and the left child does not compare strictly below
it (`if rightpos < endpos and not heap[childpos] < heap[rightpos]`). -/
def pickChild (heap : List Entry) (endpos pos : Nat) (hc : 2 * pos + 1 < endpos) :
    Except PyErr {c : Nat // pos < c ∧ c < endpos} :=
  if h2 : 2 * pos + 2 < endpos then
    match entryLt (heap.getD (2 * pos + 1) dEntry) (heap.getD (2 * pos + 2) dEntry) with
    | .error e => .error e
    | .ok true => .ok ⟨2 * pos + 1, by omega⟩
    | .ok false => .ok ⟨2 * pos + 2, by omega⟩
  else .ok ⟨2 * pos + 1, by omega⟩

/-- The descent loop of CPython's `heapq._siftup(heap, pos)`: repeatedly
move the smaller child up into the hole until the hole reaches a leaf. -/
def siftupLoop (heap : List Entry) (endpos pos : Nat) : Except PyErr (List Entry × Nat) :=
  if hc : 2 * pos + 1 < endpos then
    match pickChild heap endpos pos hc with
    | .error e => .error e
    | .ok cp => siftupLoop (heap.set pos (heap.getD cp.1 dEntry)) endpos cp.1
  else .ok (heap, pos)
termination_by endpos - pos
decreasing_by
  have := cp.2
  omega

/-- CPython's `heapq._siftup(heap, pos)`: with `endpos = len(heap)` and
`newitem = heap[pos]`, sift the hole down to a leaf along the smaller
children, write the saved item into the leaf and bubble it back up with
`_siftdown(heap, pos, leaf)`. -/
def siftup (heap : List Entry) (pos : Nat) : Except PyErr (List Entry) :=
  match siftupLoop heap heap.length pos with
  | .error e => .error e
  | .ok (h, p) => siftdown (h.set p (heap.getD pos dEntry)) pos p

/-- CPython's `heapq.heappush(heap, item)`: append, then
`_siftdown(heap, 0, len(heap) - 1)`. -/
def heappush (heap : List Entry) (item : Entry) : Except PyErr (List Entry) :=
  siftdown (heap ++ [item]) 0 ((heap ++ [item]).length - 1)

/-- CPython's `heapq.heappop(heap)`: pop the last element; if the heap is
then nonempty, the root is the return value, the last element is moved
into the root and sifted up.  Popping an empty list raises `IndexError`. -/
def heappop (heap : List Entry) : Except PyErr (Entry × List Entry) :=
  match heap.getLast? with
  | none => .error .indexError
  | some lastelt =>
    if heap.dropLast.isEmpty then .ok (lastelt, [])
    else
      match siftup (heap.dropLast.set 0 lastelt) 0 with
      | .error e => .error e
      | .ok h => .ok (heap.dropLast.getD 0 dEntry, h)

/-- CPython's `heapq.heapify(x)`: `for i in reversed(range(n//2)): _siftup(x, i)`. -/
def heapify (x : List Entry) : Except PyErr (List Entry) :=
  (List.range (x.length / 2)).reverse.foldlM (fun h i => siftup h i) x

/-- The inner loop of a scheduler round in `main` (lines 309-311):
`for k in range(n): _prio, m = heapq.heappop(queue)` - `n` consecutive
pops with no size check, collecting the popped entries. -/
def popN : Nat → List Entry → Except PyErr (List Entry × List Entry)
  | 0, h => .ok ([], h)
  | n + 1, h => do
    let (e, h1) ← heappop h
    let (es, h2) ← popN n h1
    .ok (e :: es, h2)

/-- The order in which candidates reach the final report (lines 319-323):
`for _, m in queue` iterates the queue in heap-array order; the live code
performs no sort between the scheduler rounds and this loop (the
`return False` at line 325 precedes all remaining code). -/
def reportOrder (queue : List Entry) : List MirrorStats :=
  queue.map Prod.snd

/-- The raw sample log rows written to `mirrors.tsv` (lines 321-323):
for each queue entry in heap-array order, one row per recorded sample. -/
def tsvRows (queue : List Entry) : List (Nat × ℚ × ℚ) :=
  queue.flatMap (fun e => (e.2.lens.zip e.2.dt_secs).map (fun p => (e.2.mirror, p.1, p.2)))

/-- Scenario D of the spec: one tiny and one qualifying sample,
bytes = [500, 2000000], durations = [0.05, 0.20]. -/
def exC2 : MirrorStats :=
  { mkMirrorStats 0 with lens := [500, 2000000], dt_secs := [1/20, 1/5] }

/-- Two qualifying samples with identical durations: the fitted slope is
zero, so `rate = 1.0 / slope` divides by zero (an uncaught
`ZeroDivisionError` in the Python code). -/
def exC7 : MirrorStats :=
  { mkMirrorStats 0 with lens := [2000, 3000], dt_secs := [1/10, 1/10] }

/-- Two recorded samples, both below the 1000-byte threshold: zero
qualifying samples, yet `refresh_stats` takes the fallback branch and
overwrites the derived fields. -/
def exC8 : MirrorStats :=
  { mkMirrorStats 0 with lens := [500, 600], dt_secs := [1/20, 3/50] }

/-- Three successful warm-up batches for one mirror. -/
def exC4batches : List ProbeResult :=
  [.success 2000 (1/10), .success 3000 (1/5), .success 4000 (3/10)]

/-- A queue entry as `main` line 302 builds it: key is the negated
upper bound of a stats record with the given identity and upper bound. -/
def mkQEntry (id : Nat) (upper : ℚ) : Entry :=
  (-upper, { mkMirrorStats id with rate_bps_upper := upper })

/-- A candidate with upper-bound score 2 but point-estimate only 5 B/s. -/
def exStatsA : MirrorStats := ⟨1, [2000], [1], [], 1, 5, 2⟩

/-- A candidate with upper-bound score 1 but point-estimate 100 B/s. -/
def exStatsB : MirrorStats := ⟨2, [3000], [1], [], 1, 100, 1⟩

/-- A heap-ordered, well-keyed two-entry queue in which the first
(higher upper bound) candidate has the smaller throughput
point-estimate. -/
def exQueue : List Entry := [(-2, exStatsA), (-1, exStatsB)]

/-- Two candidates that failed every probe: no samples, one recorded
error each, upper bound still at the optimistic sentinel 1.0 - so both
queue entries carry the identical key -1.0. -/
def exTieQueue : List Entry :=
  [(-1, { mkMirrorStats 1 with errors := [⟨0⟩] }),
   (-1, { mkMirrorStats 2 with errors := [⟨1⟩] })]

/-- Four queue entries among which two tie on the upper-bound score, but
arranged so that `heapify` never compares the tied pair directly. -/
def exTieOkQueue : List Entry :=
  [mkQEntry 1 5, mkQEntry 2 0, mkQEntry 3 0, mkQEntry 4 4]

/-- A one-candidate queue, as produced when exactly one candidate
survives filtering (spec Scenario C). -/
def exSingletonQueue : List Entry := [mkQEntry 7 1]

end Mirrorlist

namespace Mirrorlist

/-! ### Basic frame lemmas for the statistics layer -/

@[simp] theorem fetch_file_latency (s : MirrorStats) (r : ProbeResult) :
    (fetch_file s r).latency_secs = s.latency_secs := by
  cases r <;> rfl

@[simp] theorem fetch_file_rate (s : MirrorStats) (r : ProbeResult) :
    (fetch_file s r).rate_bps = s.rate_bps := by
  cases r <;> rfl

@[simp] theorem fetch_file_upper (s : MirrorStats) (r : ProbeResult) :
    (fetch_file s r).rate_bps_upper = s.rate_bps_upper := by
  cases r <;> rfl

theorem refresh_stats_lens (sq : ℚ → ℚ) (s : MirrorStats) :
    (refresh_stats sq s).lens = s.lens := by
  unfold refresh_stats
  split <;> rfl

theorem refresh_stats_dt_secs (sq : ℚ → ℚ) (s : MirrorStats) :
    (refresh_stats sq s).dt_secs = s.dt_secs := by
  unfold refresh_stats
  split <;> rfl

theorem foldl_fetch_latency (l : List ProbeResult) (s : MirrorStats) :
    (l.foldl fetch_file s).latency_secs = s.latency_secs := by
  induction l generalizing s with
  | nil => rfl
  | cons r t ih => simpa using ih (fetch_file s r)

theorem foldl_fetch_rate (l : List ProbeResult) (s : MirrorStats) :
    (l.foldl fetch_file s).rate_bps = s.rate_bps := by
  induction l generalizing s with
  | nil => rfl
  | cons r t ih => simpa using ih (fetch_file s r)

theorem foldl_fetch_upper (l : List ProbeResult) (s : MirrorStats) :
    (l.foldl fetch_file s).rate_bps_upper = s.rate_bps_upper := by
  induction l generalizing s with
  | nil => rfl
  | cons r t ih => simpa using ih (fetch_file s r)

theorem runEvents_len_eq (sq : ℚ → ℚ) (evs : List Event) :
    ∀ s : MirrorStats, s.lens.length = s.dt_secs.length →
      (runEvents sq s evs).lens.length = (runEvents sq s evs).dt_secs.length := by
  induction evs with
  | nil => exact fun s h => h
  | cons e t ih =>
    intro s h
    cases e with
    | probe r =>
      refine ih (fetch_file s r) ?_
      cases r with
      | success len dt => simp [fetch_file, h]
      | failure e => simpa [fetch_file] using h
    | refresh =>
      refine ih (refresh_stats sq s) ?_
      rw [refresh_stats_lens, refresh_stats_dt_secs]
      exact h

/-! ### Claims about `refresh_stats`, `fetch_file`, `fetch_many` -/

/-- C2 (counterexample): on Scenario D input (bytes = [500, 2000000],
durations = [0.05, 0.20]) the code's fallback sets the point-estimate to
`lens[0] / latency` = 500 / 0.05 = 10000 - not to the largest sample's
own ratio 2000000 / 0.20 = 10⁷ that the claim asserts. -/
theorem c2_fallback_counterexample :
    (refresh_stats (fun _ => 0) exC2).rate_bps = 10000 ∧
      (10000 : ℚ) ≠ 2000000 / (1/5) := by
  constructor
  · norm_num [refresh_stats, exC2, mkMirrorStats, qualifyingPoints, slopeDen,
      slopeNum, listMin, min_def]
  · norm_num

/-- C2 (amended): with at least two recorded samples but fewer than two
qualifying ones, `refresh_stats` sets the point-estimate to the FIRST
recorded sample's byte count divided by the MINIMUM recorded duration
(the latency) - `self.lens[0] / latency`, line 164. -/
theorem refresh_stats_fallback (sq : ℚ → ℚ) (s : MirrorStats)
    (h2 : 2 ≤ s.lens.length) (hq : (qualifyingPoints s).length < 2) :
    (refresh_stats sq s).rate_bps = s.lens.headD 0 / listMin s.dt_secs := by
  unfold refresh_stats
  rw [if_neg (by omega)]
  simp only [if_pos (Or.inl hq)]

/-- Witness for `refresh_stats_fallback` at the Scenario D input. -/
theorem refresh_stats_fallback_witness :
    2 ≤ exC2.lens.length ∧ (qualifyingPoints exC2).length < 2 ∧
      (refresh_stats (fun _ => 0) exC2).rate_bps =
        exC2.lens.headD 0 / listMin exC2.dt_secs := by
  refine ⟨by norm_num [exC2, mkMirrorStats], ?_, ?_⟩
  · norm_num [qualifyingPoints, exC2, mkMirrorStats]
  · exact refresh_stats_fallback (fun _ => 0) exC2
      (by norm_num [exC2, mkMirrorStats])
      (by norm_num [qualifyingPoints, exC2, mkMirrorStats])

/-- C4 (counterexample): after the second of three batches the
accumulated samples are bytes = [2000, 3000], durations = [0.1, 0.2],
for which a recomputation would yield a nonzero point-estimate; the
actual intermediate state still carries the stale estimate 0, because
`fetch_many` recomputes only after the final batch. -/
theorem c4_stale_intermediate_counterexample :
    ((exC4batches.take 2).foldl fetch_file (mkMirrorStats 0)).rate_bps ≠
      (refresh_stats (fun _ => 0)
        ((exC4batches.take 2).foldl fetch_file (mkMirrorStats 0))).rate_bps := by
  norm_num [exC4batches, fetch_file, mkMirrorStats, refresh_stats,
    qualifyingPoints, slopeNum, slopeDen, listMin, min_def]

/-- C4 (amended): `fetch_many` leaves every derived estimate untouched
during the repetition loop - after each of the first k batches the
latency, point-estimate and upper bound still hold their values from
before the call - and recomputes exactly once, after all batches. -/
theorem fetch_many_recompute_once (sq : ℚ → ℚ) (s : MirrorStats)
    (batches : List ProbeResult) (k : Nat) :
    ((batches.take k).foldl fetch_file s).latency_secs = s.latency_secs ∧
    ((batches.take k).foldl fetch_file s).rate_bps = s.rate_bps ∧
    ((batches.take k).foldl fetch_file s).rate_bps_upper = s.rate_bps_upper ∧
    fetch_many sq s batches = refresh_stats sq (batches.foldl fetch_file s) :=
  ⟨foldl_fetch_latency _ s, foldl_fetch_rate _ s, foldl_fetch_upper _ s, rfl⟩

/-- C5: a failed probe appends its error to the error history and leaves
both sample sequences and every derived field unchanged; the run
continues with the next event. -/
theorem probe_failure_isolated (s : MirrorStats) (e : ClientError)
    (sq : ℚ → ℚ) (evs : List Event) :
    (fetch_file s (.failure e)).lens = s.lens ∧
    (fetch_file s (.failure e)).dt_secs = s.dt_secs ∧
    (fetch_file s (.failure e)).latency_secs = s.latency_secs ∧
    (fetch_file s (.failure e)).rate_bps = s.rate_bps ∧
    (fetch_file s (.failure e)).rate_bps_upper = s.rate_bps_upper ∧
    (fetch_file s (.failure e)).errors = s.errors ++ [e] ∧
    runEvents sq s (.probe (.failure e) :: evs) =
      runEvents sq (fetch_file s (.failure e)) evs :=
  ⟨rfl, rfl, rfl, rfl, rfl, rfl, rfl⟩

/-- C6: both sample sequences start empty, a successful probe appends
exactly one element to each, a failed probe and a recomputation leave
both unchanged, and hence along any event sequence the two sequences
always have equal length. -/
theorem sample_sequences_aligned :
    (∀ m, (mkMirrorStats m).lens = ([] : List ℚ) ∧
        (mkMirrorStats m).dt_secs = ([] : List ℚ)) ∧
    (∀ (s : MirrorStats) (len dt : ℚ),
        (fetch_file s (.success len dt)).lens = s.lens ++ [len] ∧
        (fetch_file s (.success len dt)).dt_secs = s.dt_secs ++ [dt]) ∧
    (∀ (s : MirrorStats) (e : ClientError),
        (fetch_file s (.failure e)).lens = s.lens ∧
        (fetch_file s (.failure e)).dt_secs = s.dt_secs) ∧
    (∀ (sq : ℚ → ℚ) (s : MirrorStats),
        (refresh_stats sq s).lens = s.lens ∧
        (refresh_stats sq s).dt_secs = s.dt_secs) ∧
    (∀ (sq : ℚ → ℚ) (m : Nat) (evs : List Event),
        (runEvents sq (mkMirrorStats m) evs).lens.length =
          (runEvents sq (mkMirrorStats m) evs).dt_secs.length) := by
  refine ⟨fun m => ⟨rfl, rfl⟩, fun s len dt => ⟨rfl, rfl⟩, fun s e => ⟨rfl, rfl⟩,
    fun sq s => ⟨refresh_stats_lens sq s, refresh_stats_dt_secs sq s⟩,
    fun sq m evs => runEvents_len_eq sq evs (mkMirrorStats m) rfl⟩

/-- C7: on two qualifying samples with identical durations the fitted
slope Σxy/Σx² is zero, so the division `rate = 1.0 / slope` at line 158
has a zero denominator (an uncaught `ZeroDivisionError`: only
`StatisticsError` is handled); the input satisfies the claim's
equal-length hypothesis. -/
theorem refresh_stats_divzero_example :
    exC7.lens.length = exC7.dt_secs.length ∧ refreshDivOk exC7 = false := by
  constructor
  · rfl
  · norm_num [refreshDivOk, exC7, mkMirrorStats, qualifyingPoints, slopeNum,
      slopeDen, listMin, min_def]

/-- C8 (counterexample): a record with two recorded samples of which
zero qualify does NOT keep its derived fields: the fallback path
overwrites the point-estimate (here to 500 / 0.05 = 10000 ≠ 0). -/
theorem c8_qualifying_counterexample :
    (qualifyingPoints exC8).length ≤ 1 ∧
      (refresh_stats (fun _ => 0) exC8).rate_bps ≠ exC8.rate_bps := by
  constructor
  · norm_num [qualifyingPoints, exC8, mkMirrorStats]
  · norm_num [refresh_stats, exC8, mkMirrorStats, qualifyingPoints, slopeDen,
      slopeNum, listMin, min_def]

/-- C8 (amended): with zero or one RECORDED samples `refresh_stats`
returns the record unchanged - in particular the point-estimate keeps
its default 0 and the upper bound its sentinel 1. -/
theorem refresh_stats_sparse_noop (sq : ℚ → ℚ) (s : MirrorStats)
    (h : s.lens.length < 2) : refresh_stats sq s = s := by
  unfold refresh_stats
  exact if_pos h

/-- Witness for `refresh_stats_sparse_noop` on a freshly created record. -/
theorem refresh_stats_sparse_noop_witness :
    (mkMirrorStats 0).lens.length < 2 ∧
      refresh_stats (fun _ => 0) (mkMirrorStats 0) = mkMirrorStats 0 ∧
      (mkMirrorStats 0).rate_bps = 0 ∧ (mkMirrorStats 0).rate_bps_upper = 1 :=
  ⟨by norm_num [mkMirrorStats],
   refresh_stats_sparse_noop (fun _ => 0) (mkMirrorStats 0) (by norm_num [mkMirrorStats]),
   rfl, rfl⟩

/-! ### Index and key bookkeeping for the array-encoded binary heap -/

theorem getD_set_self (l : List Entry) (i : Nat) (v : Entry) (hi : i < l.length) :
    (l.set i v).getD i dEntry = v := by
  simp [List.getD_eq_getElem?_getD, List.getElem?_set_self, hi]

theorem getD_set_ne (l : List Entry) (i j : Nat) (v : Entry) (hij : i ≠ j) :
    (l.set i v).getD j dEntry = l.getD j dEntry := by
  simp [List.getD_eq_getElem?_getD, List.getElem?_set_ne, hij]

theorem getD_append_left (l l2 : List Entry) (j : Nat) (hj : j < l.length) :
    (l ++ l2).getD j dEntry = l.getD j dEntry := by
  simp [List.getD_eq_getElem?_getD, List.getElem?_append_left, hj]

theorem getD_append_last (l : List Entry) (a : Entry) :
    (l ++ [a]).getD l.length dEntry = a := by
  simp [List.getD_eq_getElem?_getD]

theorem getD_dropLast (l : List Entry) (j : Nat) (hj : j < l.dropLast.length) :
    l.dropLast.getD j dEntry = l.getD j dEntry := by
  simp only [List.getD_eq_getElem?_getD]
  rw [List.getElem?_dropLast]
  simp only [List.length_dropLast] at hj
  simp [hj]

theorem getD_mem (l : List Entry) (j : Nat) (hj : j < l.length) :
    l.getD j dEntry ∈ l := by
  rw [List.getD_eq_getElem?_getD, List.getElem?_eq_getElem hj]
  exact List.getElem_mem _

theorem mem_getD (l : List Entry) (x : Entry) (h : x ∈ l) :
    ∃ j, j < l.length ∧ l.getD j dEntry = x := by
  obtain ⟨i, hi, rfl⟩ := List.getElem_of_mem h
  exact ⟨i, hi, by rw [List.getD_eq_getElem?_getD, List.getElem?_eq_getElem hi]; rfl⟩

theorem keyAt_set_self (l : List Entry) (i : Nat) (v : Entry) (hi : i < l.length) :
    keyAt (l.set i v) i = v.1 := by
  unfold keyAt
  rw [getD_set_self l i v hi]

theorem keyAt_set_ne (l : List Entry) (i j : Nat) (v : Entry) (hij : i ≠ j) :
    keyAt (l.set i v) j = keyAt l j := by
  unfold keyAt
  rw [getD_set_ne l i j v hij]

theorem anc_lt (j : Nat) (hj : 0 < j) : anc j < j := by
  unfold anc
  omega

theorem anc_le (j : Nat) : anc j ≤ j := by
  unfold anc
  omega

theorem anc_child1 (p : Nat) : anc (2 * p + 1) = p := by
  unfold anc
  omega

theorem eq_child_of_anc (j c : Nat) (h0 : 0 < j) (h : anc j = c) :
    j = 2 * c + 1 ∨ j = 2 * c + 2 := by
  unfold anc at h
  omega

theorem child_lower (j m : Nat) (h : m ≤ anc j) : 2 * m ≤ j - 1 := by
  unfold anc at h
  omega

theorem inSub_refl (p : Nat) : inSub p p := ⟨0, rfl⟩

theorem iterate_anc_le (m j : Nat) : anc^[m] j ≤ j := by
  induction m generalizing j with
  | zero => simp
  | succ m ih =>
    rw [Function.iterate_succ_apply]
    exact le_trans (ih (anc j)) (anc_le j)

theorem inSub_le {p j : Nat} (h : inSub p j) : p ≤ j := by
  obtain ⟨m, hm⟩ := h
  rw [← hm]
  exact iterate_anc_le m j

theorem inSub_anc {p j : Nat} (h : inSub p j) (hne : j ≠ p) : inSub p (anc j) := by
  obtain ⟨m, hm⟩ := h
  cases m with
  | zero => exact absurd hm hne
  | succ m => exact ⟨m, by rwa [Function.iterate_succ_apply] at hm⟩

theorem inSub_child {p c : Nat} (h : inSub p c) (j : Nat) (hj : anc j = c) :
    inSub p j := by
  obtain ⟨m, hm⟩ := h
  exact ⟨m + 1, by rw [Function.iterate_succ_apply, hj]; exact hm⟩

theorem inSub_zero (j : Nat) : inSub 0 j := by
  induction j using Nat.strong_induction_on with
  | _ j ih =>
    rcases Nat.eq_zero_or_pos j with h0 | h0
    · exact h0 ▸ inSub_refl 0
    · obtain ⟨m, hm⟩ := ih (anc j) (anc_lt j h0)
      exact ⟨m + 1, by rw [Function.iterate_succ_apply]; exact hm⟩

theorem inSub_anc_ge {p j : Nat} (h : inSub p j) (hgt : p < j) : p ≤ anc j :=
  inSub_le (inSub_anc h (by omega))

/-! ### Comparison facts -/

theorem entryLt_true_iff (a b : Entry) : entryLt a b = .ok true ↔ a.1 < b.1 := by
  unfold entryLt
  by_cases h1 : a.1 < b.1
  · simp [h1]
  · rw [if_neg h1]
    by_cases h2 : b.1 < a.1
    · rw [if_pos h2]
      simp [h1]
    · rw [if_neg h2]
      simp [h1]

theorem entryLt_false_iff (a b : Entry) : entryLt a b = .ok false ↔ b.1 < a.1 := by
  unfold entryLt
  by_cases h1 : a.1 < b.1
  · rw [if_pos h1]
    simp [lt_asymm h1]
  · rw [if_neg h1]
    by_cases h2 : b.1 < a.1
    · rw [if_pos h2]
      simp [h2]
    · rw [if_neg h2]
      simp [h2]

theorem entryLt_error_iff (a b : Entry) :
    entryLt a b = .error .typeError ↔ a.1 = b.1 := by
  unfold entryLt
  by_cases h1 : a.1 < b.1
  · rw [if_pos h1]
    simp [ne_of_lt h1]
  · rw [if_neg h1]
    by_cases h2 : b.1 < a.1
    · rw [if_pos h2]
      simp [ne_of_gt h2]
    · rw [if_neg h2]
      simp [le_antisymm (not_lt.mp h2) (not_lt.mp h1)]

/-- What `pickChild` returns on the `.ok` path: the child index picked is
a child of `pos`, and its key is strictly below the key of any other
child of `pos` that lies inside the heap. -/
theorem pickChild_spec (w : List Entry) (n c : Nat) (hc : 2 * c + 1 < n)
    (cp : {x : Nat // c < x ∧ x < n}) (h : pickChild w n c hc = .ok cp) :
    anc cp.1 = c ∧
      ∀ j, j < n → 0 < j → anc j = c → j ≠ cp.1 → keyAt w cp.1 < keyAt w j := by
  unfold pickChild at h
  split at h
  case isTrue h2 =>
    rcases hE : entryLt (w.getD (2 * c + 1) dEntry) (w.getD (2 * c + 2) dEntry)
      with e | b
    · rw [hE] at h
      cases h
    · rw [hE] at h
      cases b
      · -- picked the right child
        rw [entryLt_false_iff] at hE
        have hcp : cp.1 = 2 * c + 2 := by
          cases h
          rfl
        rw [hcp]
        refine ⟨by unfold anc; omega, ?_⟩
        intro j hj h0 hanc hne
        rcases eq_child_of_anc j c h0 hanc with rfl | rfl
        · exact hE
        · omega
      · -- picked the left child
        rw [entryLt_true_iff] at hE
        have hcp : cp.1 = 2 * c + 1 := by
          cases h
          rfl
        rw [hcp]
        refine ⟨anc_child1 c, ?_⟩
        intro j hj h0 hanc hne
        rcases eq_child_of_anc j c h0 hanc with rfl | rfl
        · omega
        · exact hE
  case isFalse h2 =>
    have hcp : cp.1 = 2 * c + 1 := by
      cases h
      rfl
    rw [hcp]
    refine ⟨anc_child1 c, ?_⟩
    intro j hj h0 hanc hne
    rcases eq_child_of_anc j c h0 hanc with rfl | rfl
    · omega
    · omega

/-! ### Correctness of the bubble-up loop (`_siftdown`) -/

/-- Invariant proof for `siftdownLoop`.  The "virtual array" `w.set c it`
is the heap as it will look once `newitem` is written into the hole `c`.
Hypotheses: the hole lies in the subtree rooted at `s`; every edge with
parent index ≥ `s` holds in the virtual array except the edge into the
hole; and the grandparent property: the hole's parent is ≤ the hole's
children.  Conclusion: after the loop and the final write, every edge
with parent index ≥ `s` holds; every element of the result is an input
element or `newitem`. -/
theorem siftdownLoop_spec (s : Nat) (it : Entry) :
    ∀ c, ∀ w : List Entry, c < w.length → s ≤ c → inSub s c →
      (∀ j, j < w.length → 0 < j → s ≤ anc j → j ≠ c →
        keyAt (w.set c it) (anc j) ≤ keyAt (w.set c it) j) →
      (∀ j, j < w.length → 0 < j → anc j = c → s < c →
        keyAt (w.set c it) (anc c) ≤ keyAt (w.set c it) j) →
      ∀ res : List Entry × Nat, siftdownLoop w s c it = .ok res →
        res.1.length = w.length ∧ res.2 < w.length ∧
        (∀ x ∈ res.1.set res.2 it, x ∈ w ∨ x = it) ∧
        (∀ j, j < w.length → 0 < j → s ≤ anc j →
          keyAt (res.1.set res.2 it) (anc j) ≤ keyAt (res.1.set res.2 it) j) := by
  intro c
  induction c using Nat.strong_induction_on with
  | _ c ih =>
    intro w hc hsc hsub hG hGG res hrun
    unfold siftdownLoop at hrun
    split at hrun
    case isTrue hlt =>
      rcases hE : entryLt it (w.getD ((c - 1) / 2) dEntry) with e | b
      · rw [hE] at hrun
        exact Except.noConfusion hrun
      · rw [hE] at hrun
        have hc0 : 0 < c := by omega
        have hqc : anc c < c := anc_lt c hc0
        have hanc : anc c = (c - 1) / 2 := rfl
        cases b
        case false =>
          -- newitem does not compare below the parent: the loop stops here
          rw [entryLt_false_iff] at hE
          injection hrun with h
          subst h
          refine ⟨by simp, hc, fun x hx => List.mem_or_eq_of_mem_set hx, ?_⟩
          intro j hj h0 hsj
          by_cases hjc : j = c
          · subst hjc
            rw [keyAt_set_ne w j (anc j) it (by omega), keyAt_set_self w j it hj]
            exact le_of_lt hE
          · exact hG j hj h0 hsj hjc
        case true =>
          -- the parent moves down into the hole; the hole moves to the parent
          rw [entryLt_true_iff] at hE
          generalize hP : w.getD ((c - 1) / 2) dEntry = parent at hE hrun
          have hql : anc c < w.length := by omega
          have hsq : s ≤ anc c := inSub_anc_ge hsub hlt
          have hsubq : inSub s (anc c) := inSub_anc hsub (by omega)
          have hkparent : keyAt w (anc c) = parent.1 := by
            unfold keyAt
            rw [hanc, hP]
          -- key values in the old and new virtual arrays
          have hkAq : keyAt (w.set c it) (anc c) = parent.1 := by
            rw [keyAt_set_ne w c (anc c) it (by omega)]
            exact hkparent
          have hkA'c : keyAt ((w.set c parent).set (anc c) it) c = parent.1 := by
            rw [keyAt_set_ne _ (anc c) c it (by omega)]
            exact keyAt_set_self w c parent hc
          have hkA'q : keyAt ((w.set c parent).set (anc c) it) (anc c) = it.1 :=
            keyAt_set_self _ (anc c) it (by simpa using hql)
          have hkA' : ∀ x, x ≠ c → x ≠ anc c →
              keyAt ((w.set c parent).set (anc c) it) x = keyAt (w.set c it) x := by
            intro x hxc hxq
            rw [keyAt_set_ne _ (anc c) x it (fun h => hxq h.symm),
              keyAt_set_ne w c x parent (fun h => hxc h.symm),
              keyAt_set_ne w c x it (fun h => hxc h.symm)]
          rw [← hanc] at hrun
          -- the invariant for the recursive call on the new hole
          have hG' : ∀ j, j < (w.set c parent).length → 0 < j → s ≤ anc j → j ≠ anc c →
              keyAt ((w.set c parent).set (anc c) it) (anc j) ≤
                keyAt ((w.set c parent).set (anc c) it) j := by
            intro j hj h0 hsj hjq
            rw [List.length_set] at hj
            by_cases hjc : j = c
            · subst hjc
              rw [show anc j = (j - 1) / 2 from rfl, ← hanc, hkA'q, hkA'c]
              exact le_of_lt hE
            · by_cases hancc : anc j = c
              · rw [hancc, hkA'c, hkA' j hjc hjq]
                have := hGG j hj h0 hancc hlt
                rw [hkAq] at this
                exact this
              · by_cases hancq : anc j = anc c
                · rw [hancq, hkA'q, hkA' j hjc hjq]
                  have := hG j hj h0 hsj hjc
                  rw [hancq, hkAq] at this
                  exact le_trans (le_of_lt hE) this
                · rw [hkA' (anc j) hancc hancq, hkA' j hjc hjq]
                  exact hG j hj h0 hsj hjc
          have hGG' : ∀ j, j < (w.set c parent).length → 0 < j → anc j = anc c →
              s < anc c →
              keyAt ((w.set c parent).set (anc c) it) (anc (anc c)) ≤
                keyAt ((w.set c parent).set (anc c) it) j := by
            intro j hj h0 hancj hsq'
            rw [List.length_set] at hj
            have hq0 : 0 < anc c := by omega
            have hqq : anc (anc c) < anc c := anc_lt (anc c) hq0
            have hedge : keyAt (w.set c it) (anc (anc c)) ≤ parent.1 := by
              have := hG (anc c) hql hq0 (inSub_anc_ge hsubq hsq') (by omega)
              rw [hkAq] at this
              exact this
            have hlhs : keyAt ((w.set c parent).set (anc c) it) (anc (anc c)) =
                keyAt (w.set c it) (anc (anc c)) :=
              hkA' (anc (anc c)) (by omega) (by omega)
            by_cases hjc : j = c
            · subst hjc
              rw [hlhs, hkA'c]
              exact hedge
            · have hjq : j ≠ anc c := by
                have := anc_lt j h0
                omega
              rw [hlhs, hkA' j hjc hjq]
              have := hG j hj h0 (by rw [hancj]; omega) hjc
              rw [hancj, hkAq] at this
              exact le_trans hedge this
          obtain ⟨hlen, hplt, hmem, hGfin⟩ :=
            ih (anc c) hqc (w.set c parent) (by simpa using hql) hsq hsubq hG' hGG' res hrun
          rw [List.length_set] at hlen hplt
          refine ⟨hlen, hplt, ?_, ?_⟩
          · intro x hx
            rcases hmem x hx with hx' | hx'
            · rcases List.mem_or_eq_of_mem_set hx' with hx'' | hx''
              · exact Or.inl hx''
              · refine Or.inl ?_
                rw [hx'', ← hP]
                exact getD_mem w ((c - 1) / 2) (by omega)
            · exact Or.inr hx'
          · intro j hj h0 hsj
            exact hGfin j (by simpa using hj) h0 hsj
    case isFalse hge =>
      injection hrun with h
      subst h
      refine ⟨by simp, hc, fun x hx => List.mem_or_eq_of_mem_set hx, ?_⟩
      intro j hj h0 hsj
      by_cases hjc : j = c
      · subst hjc
        have := anc_lt j h0
        omega
      · exact hG j hj h0 hsj hjc

/-! ### Correctness of the descent loop (`_siftup`) -/

/-- Invariant proof for `siftupLoop`, relative to the subtree rooted at
`r`.  The hole starts at `r` and walks down the smaller-child path.
Hypotheses: every edge with parent index ≥ `r` holds except those into or
out of the hole, and the bridging property: the hole's parent (when the
hole is strictly below `r`) is ≤ the hole's children.  Conclusion: the
hole ends at a leaf of the subtree and the same edge set holds there. -/
theorem siftupLoop_spec (r : Nat) :
    ∀ (w : List Entry) (n c : Nat), n = w.length → c < n → r ≤ c → inSub r c →
      (∀ j, j < n → 0 < j → r ≤ anc j → j ≠ c → anc j ≠ c →
        keyAt w (anc j) ≤ keyAt w j) →
      (∀ j, j < n → anc j = c → r < c → keyAt w (anc c) ≤ keyAt w j) →
      ∀ res : List Entry × Nat, siftupLoop w n c = .ok res →
        res.1.length = w.length ∧ (∀ x ∈ res.1, x ∈ w) ∧
        res.2 < n ∧ r ≤ res.2 ∧ inSub r res.2 ∧ n ≤ 2 * res.2 + 1 ∧
        (∀ j, j < n → 0 < j → r ≤ anc j → j ≠ res.2 → anc j ≠ res.2 →
          keyAt res.1 (anc j) ≤ keyAt res.1 j) := by
  intro w n c
  induction w, n, c using siftupLoop.induct with
  | case1 heap endpos pos h e hpick =>
    intro hn hc hrc hsub hH1 hHB res hrun
    unfold siftupLoop at hrun
    rw [dif_pos h, hpick] at hrun
    exact Except.noConfusion hrun
  | case2 heap endpos pos h cp hpick ih =>
    intro hn hc hrc hsub hH1 hHB res hrun
    unfold siftupLoop at hrun
    rw [dif_pos h, hpick] at hrun
    obtain ⟨hanccp, hsib⟩ := pickChild_spec heap endpos pos h cp hpick
    obtain ⟨hpcp, hcpn⟩ := cp.2
    have hposlen : pos < heap.length := by omega
    have hcplen : cp.1 < heap.length := by omega
    have hkey_hole : keyAt (heap.set pos (heap.getD cp.1 dEntry)) pos =
        keyAt heap cp.1 :=
      keyAt_set_self heap pos (heap.getD cp.1 dEntry) hposlen
    have hkey_other : ∀ x, x ≠ pos →
        keyAt (heap.set pos (heap.getD cp.1 dEntry)) x = keyAt heap x := by
      intro x hx
      exact keyAt_set_ne heap pos x _ (fun hh => hx hh.symm)
    have hH1' : ∀ j, j < endpos → 0 < j → r ≤ anc j → j ≠ cp.1 → anc j ≠ cp.1 →
        keyAt (heap.set pos (heap.getD cp.1 dEntry)) (anc j) ≤
          keyAt (heap.set pos (heap.getD cp.1 dEntry)) j := by
      intro j hj h0 hrj hne hnanc
      by_cases hjp : j = pos
      · subst hjp
        rcases Nat.lt_or_ge r j with hrlt | hrge
        · have hancne : anc j ≠ j := by
            have := anc_lt j h0
            omega
          rw [hkey_other (anc j) (by omega), hkey_hole]
          exact hHB cp.1 hcpn hanccp hrlt
        · have : r = j := by omega
          have := anc_lt j h0
          omega
      · by_cases hancp : anc j = pos
        · rw [hancp, hkey_hole, hkey_other j hjp]
          exact le_of_lt (hsib j hj h0 hancp hne)
        · rw [hkey_other (anc j) hancp, hkey_other j hjp]
          exact hH1 j hj h0 hrj hjp hancp
    have hHB' : ∀ j, j < endpos → anc j = cp.1 → r < cp.1 →
        keyAt (heap.set pos (heap.getD cp.1 dEntry)) (anc cp.1) ≤
          keyAt (heap.set pos (heap.getD cp.1 dEntry)) j := by
      intro j hj hancj hrcp
      have h0 : 0 < j := by
        rcases Nat.eq_zero_or_pos j with rfl | h0
        · rw [show anc 0 = 0 from rfl] at hancj
          omega
        · exact h0
      have hjgt : cp.1 < j := by
        have := anc_lt j h0
        omega
      rw [hanccp, hkey_hole, hkey_other j (by omega)]
      have := hH1 j hj h0 (by omega) (by omega) (by omega)
      rw [hancj] at this
      exact this
    obtain ⟨hlen, hmem, hp1, hp2, hp3, hp4, hp5⟩ :=
      ih (by simpa using hn) (by omega) (by omega) (inSub_child hsub cp.1 hanccp)
        hH1' hHB' res hrun
    rw [List.length_set] at hlen
    refine ⟨hlen, ?_, hp1, by omega, hp3, hp4, hp5⟩
    intro x hx
    rcases List.mem_or_eq_of_mem_set (hmem x hx) with hx' | hx'
    · exact hx'
    · rw [hx']
      exact getD_mem heap cp.1 hcplen
  | case3 heap endpos pos h =>
    intro hn hc hrc hsub hH1 hHB res hrun
    unfold siftupLoop at hrun
    rw [dif_neg h] at hrun
    injection hrun with hres
    subst hres
    exact ⟨rfl, fun x hx => hx, hc, hrc, hsub, by omega, hH1⟩

/-- Correctness of `_siftdown(heap, startpos, pos)`: under the hole
invariant at `pos` (stated directly on the array, since the item to
place is `heap[pos]` itself), a successful run restores every edge with
parent index ≥ `startpos` and permutes existing elements. -/
theorem siftdown_spec (w : List Entry) (s c : Nat)
    (hc : c < w.length) (hsc : s ≤ c) (hsub : inSub s c)
    (hG : ∀ j, j < w.length → 0 < j → s ≤ anc j → j ≠ c →
      keyAt w (anc j) ≤ keyAt w j)
    (hGG : ∀ j, j < w.length → 0 < j → anc j = c → s < c →
      keyAt w (anc c) ≤ keyAt w j)
    (res : List Entry) (hrun : siftdown w s c = .ok res) :
    res.length = w.length ∧ (∀ x ∈ res, x ∈ w) ∧
    (∀ j, j < w.length → 0 < j → s ≤ anc j → keyAt res (anc j) ≤ keyAt res j) := by
  unfold siftdown at hrun
  rcases hL : siftdownLoop w s c (w.getD c dEntry) with e | ⟨h2, p⟩
  · rw [hL] at hrun
    exact Except.noConfusion hrun
  · rw [hL] at hrun
    have hrun2 : Except.ok (h2.set p (w.getD c dEntry)) =
        (Except.ok res : Except PyErr (List Entry)) := hrun
    injection hrun2 with hres
    have hkeq : ∀ x, keyAt (w.set c (w.getD c dEntry)) x = keyAt w x := by
      intro x
      by_cases hx : x = c
      · subst hx
        exact keyAt_set_self w x _ hc
      · exact keyAt_set_ne w c x _ (fun hh => hx hh.symm)
    obtain ⟨hlen, hplt, hmem, hGfin⟩ :=
      siftdownLoop_spec s (w.getD c dEntry) c w hc hsc hsub
        (fun j hj h0 hsj hjc => by
          rw [hkeq (anc j), hkeq j]
          exact hG j hj h0 hsj hjc)
        (fun j hj h0 hancj hslt => by
          rw [hkeq (anc c), hkeq j]
          exact hGG j hj h0 hancj hslt)
        (h2, p) hL
    subst hres
    refine ⟨by simpa using hlen, ?_, ?_⟩
    · intro x hx
      rcases hmem x hx with hx' | hx'
      · exact hx'
      · rw [hx']
        exact getD_mem w c hc
    · exact hGfin

/-- Correctness of `_siftup(heap, pos)`: if every edge with parent index
strictly below `pos` ... strictly greater than `pos` holds, a successful
run makes every edge with parent index ≥ `pos` hold, permuting existing
elements only. -/
theorem siftup_spec (heap : List Entry) (pos : Nat) (hpos : pos < heap.length)
    (hH : ∀ j, j < heap.length → 0 < j → pos < anc j →
      keyAt heap (anc j) ≤ keyAt heap j)
    (res : List Entry) (hrun : siftup heap pos = .ok res) :
    res.length = heap.length ∧ (∀ x ∈ res, x ∈ heap) ∧
    (∀ j, j < heap.length → 0 < j → pos ≤ anc j →
      keyAt res (anc j) ≤ keyAt res j) := by
  unfold siftup at hrun
  rcases hL : siftupLoop heap heap.length pos with e | ⟨w, p⟩
  · rw [hL] at hrun
    exact Except.noConfusion hrun
  · rw [hL] at hrun
    have hrun2 : siftdown (w.set p (heap.getD pos dEntry)) pos p = .ok res := hrun
    obtain ⟨hlen, hmem, hpn, hrp, hsubp, hleaf, hH1⟩ :=
      siftupLoop_spec pos heap heap.length pos rfl hpos (le_refl pos)
        (inSub_refl pos)
        (fun j hj h0 hsj hjc hancjc => hH j hj h0 (by omega))
        (fun j hj hancj hlt => absurd hlt (lt_irrefl pos))
        (w, p) hL
    have hplen : p < w.length := by
      rw [hlen]
      exact hpn
    have hnochild : ∀ j, j < heap.length → 0 < j → anc j ≠ p := by
      intro j hj h0 hancj
      rcases eq_child_of_anc j p h0 hancj with rfl | rfl <;> omega
    have hkeq : ∀ x, x ≠ p →
        keyAt (w.set p (heap.getD pos dEntry)) x = keyAt w x := by
      intro x hx
      exact keyAt_set_ne w p x _ (fun hh => hx hh.symm)
    obtain ⟨hlen2, hmem2, hGfin⟩ :=
      siftdown_spec (w.set p (heap.getD pos dEntry)) pos p
        (by simpa [hlen] using hpn) hrp hsubp
        (fun j hj h0 hsj hjp => by
          rw [List.length_set, hlen] at hj
          rw [hkeq (anc j) (hnochild j hj h0), hkeq j hjp]
          exact hH1 j hj h0 hsj hjp (hnochild j hj h0))
        (fun j hj h0 hancj hslt => by
          rw [List.length_set, hlen] at hj
          exact absurd hancj (hnochild j hj h0))
        res hrun2
    rw [List.length_set, hlen] at hlen2 hGfin
    refine ⟨hlen2, ?_, hGfin⟩
    intro x hx
    rcases List.mem_or_eq_of_mem_set (hmem2 x hx) with hx' | hx'
    · exact hmem x hx'
    · rw [hx']
      exact getD_mem heap pos hpos

/-! ### Correctness of `heapify`, `heappush`, `heappop` -/

/-- The `for i in reversed(range(n//2))` loop of `heapify`: processing
indices `m-1, ..., 0` turns "every edge with parent index ≥ m holds"
into "every edge holds". -/
theorem heapify_aux (n : Nat) :
    ∀ (m : Nat) (w : List Entry), w.length = n → 2 * m ≤ n →
      (∀ j, j < n → 0 < j → m ≤ anc j → keyAt w (anc j) ≤ keyAt w j) →
      ∀ res, (List.range m).reverse.foldlM (fun h i => siftup h i) w = .ok res →
        res.length = n ∧ (∀ x ∈ res, x ∈ w) ∧
        (∀ j, j < n → 0 < j → keyAt res (anc j) ≤ keyAt res j) := by
  intro m
  induction m with
  | zero =>
    intro w hw h2m hInv res hrun
    simp only [List.range_zero, List.reverse_nil, List.foldlM_nil] at hrun
    injection hrun with hres
    subst hres
    exact ⟨hw, fun x hx => hx, fun j hj h0 => hInv j hj h0 (Nat.zero_le _)⟩
  | succ m ih =>
    intro w hw h2m hInv res hrun
    rw [List.range_succ, List.reverse_append, List.reverse_singleton,
      List.singleton_append, List.foldlM_cons] at hrun
    rcases hs : siftup w m with e | w1
    · rw [hs] at hrun
      exact Except.noConfusion hrun
    · rw [hs] at hrun
      have hrun2 : (List.range m).reverse.foldlM (fun h i => siftup h i) w1 =
          .ok res := hrun
      obtain ⟨hl1, hm1, hG1⟩ :=
        siftup_spec w m (by omega)
          (fun j hj h0 hanc => hInv j (by omega) h0 (by omega)) w1 hs
      obtain ⟨hlen, hmem, hfin⟩ :=
        ih w1 (hl1.trans hw) (by omega)
          (fun j hj h0 hanc => hG1 j (by omega) h0 hanc) res hrun2
      exact ⟨hlen, fun x hx => hm1 x (hmem x hx), hfin⟩

/-- `heapify` establishes the heap invariant; the result is built from
elements of the input. -/
theorem heapify_spec (l : List Entry) (res : List Entry)
    (hrun : heapify l = .ok res) :
    HeapProp res ∧ res.length = l.length ∧ (∀ x ∈ res, x ∈ l) := by
  unfold heapify at hrun
  obtain ⟨hlen, hmem, hfin⟩ :=
    heapify_aux l.length (l.length / 2) l rfl (by omega)
      (fun j hj h0 hanc => by
        have := child_lower j (l.length / 2) hanc
        omega)
      res hrun
  refine ⟨?_, hlen, hmem⟩
  intro j hj h0
  exact hfin j (by rw [← hlen]; exact List.mem_range.mp hj) h0

/-- In a heap the root key is minimal. -/
theorem heapProp_root_min (h : List Entry) (hp : HeapProp h) :
    ∀ j, j < h.length → keyAt h 0 ≤ keyAt h j := by
  intro j
  induction j using Nat.strong_induction_on with
  | _ j ih =>
    intro hj
    rcases Nat.eq_zero_or_pos j with rfl | h0
    · exact le_refl _
    · exact le_trans (ih (anc j) (anc_lt j h0) (lt_trans (anc_lt j h0) hj))
        (hp j (List.mem_range.mpr hj) h0)

/-- `heappush` preserves the heap invariant and adds exactly the pushed
entry to the pool of elements. -/
theorem heappush_spec (heap : List Entry) (item : Entry) (hp : HeapProp heap)
    (res : List Entry) (hrun : heappush heap item = .ok res) :
    HeapProp res ∧ res.length = heap.length + 1 ∧
    (∀ x ∈ res, x ∈ heap ∨ x = item) := by
  unfold heappush at hrun
  have hlen2 : (heap ++ [item]).length = heap.length + 1 := by simp
  have hkap : ∀ x, x < heap.length →
      keyAt (heap ++ [item]) x = keyAt heap x := by
    intro x hx
    unfold keyAt
    rw [getD_append_left heap [item] x hx]
  obtain ⟨hlen, hmem, hG⟩ :=
    siftdown_spec (heap ++ [item]) 0 ((heap ++ [item]).length - 1)
      (by omega) (Nat.zero_le _) (inSub_zero _)
      (fun j hj h0 hsj hjc => by
        have hjlt : j < heap.length := by omega
        have hajlt : anc j < heap.length := lt_of_le_of_lt (anc_le j) hjlt
        rw [hkap j hjlt, hkap (anc j) hajlt]
        exact hp j (List.mem_range.mpr hjlt) h0)
      (fun j hj h0 hancj hslt => by
        rcases eq_child_of_anc j ((heap ++ [item]).length - 1) h0 hancj
          with rfl | rfl <;> omega)
      res hrun
  refine ⟨?_, by omega, ?_⟩
  · intro j hj h0
    exact hG j (by rw [← hlen]; exact List.mem_range.mp hj) h0 (Nat.zero_le _)
  · intro x hx
    rcases List.mem_append.mp (hmem x hx) with hx' | hx'
    · exact Or.inl hx'
    · exact Or.inr (List.mem_singleton.mp hx')

/-- `heappop` returns an entry of minimal key: every entry remaining in
the heap afterwards has a key ≥ the popped key; the invariant is
preserved and the remaining entries all come from the input heap. -/
theorem heappop_spec (heap : List Entry) (hp : HeapProp heap)
    (x : Entry) (h2 : List Entry) (hrun : heappop heap = .ok (x, h2)) :
    HeapProp h2 ∧ x ∈ heap ∧ h2.length + 1 = heap.length ∧
    (∀ e ∈ h2, e ∈ heap) ∧ (∀ e ∈ h2, x.1 ≤ e.1) := by
  unfold heappop at hrun
  rcases hL : heap.getLast? with _ | lastelt
  · rw [hL] at hrun
    exact Except.noConfusion hrun
  · rw [hL] at hrun
    have hne : heap ≠ [] := by
      intro h
      rw [h] at hL
      simp at hL
    have hpos : 0 < heap.length := List.length_pos.mpr hne
    have hlast_mem : lastelt ∈ heap := List.mem_of_mem_getLast? hL
    replace hrun : (if heap.dropLast.isEmpty then Except.ok (lastelt, ([] : List Entry))
        else match siftup (heap.dropLast.set 0 lastelt) 0 with
          | Except.error e => Except.error e
          | Except.ok h => Except.ok (heap.dropLast.getD 0 dEntry, h)) =
        Except.ok (x, h2) := hrun
    by_cases hemp : heap.dropLast.isEmpty
    · rw [if_pos hemp] at hrun
      injection hrun with hpair
      injection hpair with hx hh2
      subst hx
      subst hh2
      have hdl : heap.dropLast.length = 0 := by
        rw [List.isEmpty_iff] at hemp
        rw [hemp]
        rfl
      rw [List.length_dropLast] at hdl
      refine ⟨?_, hlast_mem, by simp; omega, ?_, ?_⟩
      · intro j hj h0
        simp at hj
      · intro e he
        simp at he
      · intro e he
        simp at he
    · rw [if_neg hemp] at hrun
      rcases hs : siftup (heap.dropLast.set 0 lastelt) 0 with e | h3
      · rw [hs] at hrun
        exact Except.noConfusion hrun
      · rw [hs] at hrun
        injection hrun with hpair
        injection hpair with hx hh2
        subst hx
        subst hh2
        have hdlpos : 0 < heap.dropLast.length := by
          rcases Nat.eq_zero_or_pos heap.dropLast.length with h0 | h0
          · rw [List.isEmpty_iff] at hemp
            exact absurd (List.length_eq_zero.mp h0) hemp
          · exact h0
        have hdl : heap.dropLast.length = heap.length - 1 := List.length_dropLast heap
        have hWlen : (heap.dropLast.set 0 lastelt).length = heap.dropLast.length := by
          simp
        have hkW : ∀ y, 0 < y → y < heap.dropLast.length →
            keyAt (heap.dropLast.set 0 lastelt) y = keyAt heap y := by
          intro y hy0 hy
          rw [keyAt_set_ne heap.dropLast 0 y lastelt (by omega)]
          unfold keyAt
          rw [getD_dropLast heap y hy]
        obtain ⟨hl3, hm3, hG3⟩ :=
          siftup_spec (heap.dropLast.set 0 lastelt) 0 (by omega)
            (fun j hj h0 hanc => by
              rw [hWlen] at hj
              rw [hkW j h0 hj, hkW (anc j) hanc (lt_of_le_of_lt (anc_le j) hj)]
              exact hp j (List.mem_range.mpr (by omega)) h0)
            h3 hs
        rw [hWlen] at hl3
        have hgot : heap.dropLast.getD 0 dEntry = heap.getD 0 dEntry :=
          getD_dropLast heap 0 hdlpos
        have hmem_heap : ∀ e ∈ h3, e ∈ heap := by
          intro e he
          rcases List.mem_or_eq_of_mem_set (hm3 e he) with he' | he'
          · exact (List.dropLast_sublist heap).mem he'
          · rw [he']
            exact hlast_mem
        refine ⟨?_, ?_, by omega, hmem_heap, ?_⟩
        · intro j hj h0
          exact hG3 j (by rw [hWlen, ← hl3]; exact List.mem_range.mp hj) h0
            (Nat.zero_le _)
        · rw [hgot]
          exact getD_mem heap 0 hpos
        · intro e he
          obtain ⟨j, hj, hje⟩ := mem_getD heap e (hmem_heap e he)
          have : keyAt heap 0 ≤ keyAt heap j := heapProp_root_min heap hp j hj
          unfold keyAt at this
          rw [hje] at this
          rw [hgot]
          exact this

/-- One step of the `heapify` loop, for concrete evaluation. -/
theorem foldlM_siftup_cons (b b2 : List Entry) (a : Nat) (l : List Nat)
    (h : siftup b a = .ok b2) :
    (a :: l).foldlM (fun h i => siftup h i) b =
      l.foldlM (fun h i => siftup h i) b2 := by
  rw [List.foldlM_cons, h]
  rfl

/-- An erroring step of the `heapify` loop aborts the fold. -/
theorem foldlM_siftup_cons_err (b : List Entry) (a : Nat) (l : List Nat)
    (e : PyErr) (h : siftup b a = .error e) :
    (a :: l).foldlM (fun h i => siftup h i) b = .error e := by
  rw [List.foldlM_cons, h]
  rfl

/-! ### Claims about the scheduler's priority queue and the orchestrator -/

/-- C9: the scheduler's priority discipline.  `heapify` establishes the
heap invariant; `heappush` and `heappop` preserve it; and at every
successful pop the popped entry's key is minimal, so - since every entry
is keyed by its candidate's negated upper bound - the popped candidate's
upper-bound score is ≥ the score of every candidate remaining in the
queue at that moment.  Mutation safety holds structurally: stats are
mutated only between a pop and the subsequent re-push, so the key of a
queued entry always equals its candidate's negated upper bound. -/
theorem scheduler_pop_priority :
    (∀ l h, heapify l = .ok h → HeapProp h ∧ ∀ x ∈ h, x ∈ l) ∧
    (∀ h e h2, HeapProp h → heappush h e = .ok h2 →
      HeapProp h2 ∧ ∀ x ∈ h2, x ∈ h ∨ x = e) ∧
    (∀ h x h2, HeapProp h → heappop h = .ok (x, h2) →
      HeapProp h2 ∧ x ∈ h ∧ (∀ e ∈ h2, e ∈ h) ∧ (∀ e ∈ h2, x.1 ≤ e.1) ∧
      ((∀ e ∈ h, e.1 = -e.2.rate_bps_upper) →
        ∀ e ∈ h2, e.2.rate_bps_upper ≤ x.2.rate_bps_upper)) := by
  refine ⟨?_, ?_, ?_⟩
  · intro l h hrun
    obtain ⟨h1, _, h3⟩ := heapify_spec l h hrun
    exact ⟨h1, h3⟩
  · intro h e h2 hp hrun
    obtain ⟨h1, _, h3⟩ := heappush_spec h e hp h2 hrun
    exact ⟨h1, h3⟩
  · intro h x h2 hp hrun
    obtain ⟨h1, hx, h3, h4, h5⟩ := heappop_spec h hp x h2 hrun
    refine ⟨h1, hx, h4, h5, ?_⟩
    intro hwk e he
    have hkey := h5 e he
    rw [hwk x hx, hwk e (h4 e he)] at hkey
    linarith

/-- Witness for `scheduler_pop_priority`: popping the two-entry queue
`exQueue` returns the entry with the greater upper bound, and the
remaining candidate's upper bound is below the popped one's. -/
theorem scheduler_pop_priority_witness :
    HeapProp exQueue ∧
      heappop exQueue = .ok ((-2, exStatsA), [(-1, exStatsB)]) ∧
      HeapProp [((-1 : ℚ), exStatsB)] ∧
      exStatsB.rate_bps_upper ≤ exStatsA.rate_bps_upper := by
  have hp : HeapProp exQueue := by
    intro j hj h0
    simp only [exQueue, List.length_cons, List.length_nil, List.mem_range] at hj
    interval_cases j
    norm_num [keyAt, anc, exQueue, exStatsA, exStatsB]
  have hrun : heappop exQueue = .ok ((-2, exStatsA), [(-1, exStatsB)]) := by
    simp [heappop, exQueue, siftup, siftupLoop, siftdown, siftdownLoop, dEntry]
  obtain ⟨h1, _, _, _, h5⟩ :=
    scheduler_pop_priority.2.2 exQueue ((-2 : ℚ), exStatsA) [((-1 : ℚ), exStatsB)]
      hp hrun
  refine ⟨hp, hrun, h1, ?_⟩
  refine h5 ?_ ((-1 : ℚ), exStatsB) (by simp)
  intro e he
  simp only [exQueue, List.mem_cons, List.mem_singleton, List.not_mem_nil,
    or_false] at he
  rcases he with rfl | rfl <;> norm_num [exStatsA, exStatsB]

set_option maxRecDepth 4000 in
set_option maxHeartbeats 2000000 in
/-- C10 (counterexample): a tie on the upper-bound score does not always
make a heap operation raise: in `exTieOkQueue` the entries at positions
1 and 2 carry the identical key (two candidates with upper bound 0), yet
`heapify` never compares the tied pair and returns normally. -/
theorem c10_tie_without_comparison_succeeds :
    (mkQEntry 2 0).1 = (mkQEntry 3 0).1 ∧ (mkQEntry 2 0).2 ≠ (mkQEntry 3 0).2 ∧
      heapify exTieOkQueue =
        .ok [mkQEntry 1 5, mkQEntry 4 4, mkQEntry 3 0, mkQEntry 2 0] := by
  refine ⟨rfl, by norm_num [mkQEntry, mkMirrorStats], ?_⟩
  have s1 : siftup exTieOkQueue 1 =
      .ok [mkQEntry 1 5, mkQEntry 4 4, mkQEntry 3 0, mkQEntry 2 0] := by
    simp [siftup, siftupLoop, pickChild, siftdown, siftdownLoop, entryLt,
      dEntry, exTieOkQueue, mkQEntry, mkMirrorStats]
    norm_num
  have s2 : siftup [mkQEntry 1 5, mkQEntry 4 4, mkQEntry 3 0, mkQEntry 2 0] 0 =
      .ok [mkQEntry 1 5, mkQEntry 4 4, mkQEntry 3 0, mkQEntry 2 0] := by
    simp [siftup, siftupLoop, pickChild, siftdown, siftdownLoop, entryLt,
      dEntry, mkQEntry, mkMirrorStats]
    norm_num
  have hr : (List.range (exTieOkQueue.length / 2)).reverse = [1, 0] := rfl
  unfold heapify
  rw [hr, foldlM_siftup_cons _ _ _ _ s1, foldlM_siftup_cons _ _ _ _ s2]
  rfl

/-- C10 (amended): heap operations compare entries as
(negated score, stats) tuples, and a comparison raises `TypeError`
exactly when it reaches two equal scores (the stats records are
unordered); in particular, seeding the queue with two candidates that
failed every probe - both still at the sentinel score 1.0 - makes
`heapify` raise `TypeError`.  Pairwise-distinct scores are thus required
for heap operations to be guaranteed to succeed, although a tie that is
never directly compared does not raise. -/
theorem heap_tie_comparison_raises :
    (∀ a b : Entry, entryLt a b = .error .typeError ↔ a.1 = b.1) ∧
      heapify exTieQueue = .error .typeError := by
  refine ⟨entryLt_error_iff, ?_⟩
  have s1 : siftup exTieQueue 0 = .error .typeError := by
    simp [siftup, siftupLoop, pickChild, siftdown, siftdownLoop, entryLt,
      dEntry, exTieQueue, mkMirrorStats]
  have hr : (List.range (exTieQueue.length / 2)).reverse = [0] := rfl
  unfold heapify
  rw [hr, foldlM_siftup_cons_err _ _ _ _ s1]

/-- C3: with exactly one surviving candidate the two truncations
(`mirrors[:30]`, `mirrors[:20]`) are indeed no-ops and `heapify` of the
one-entry queue succeeds, but the first scheduler round - which pops 5
entries unconditionally (`for k in range(5): heapq.heappop(queue)`) -
raises `IndexError` on the second pop instead of completing the run. -/
theorem single_candidate_round_crashes :
    List.take 30 [mkQEntry 7 1] = [mkQEntry 7 1] ∧
      List.take 20 [mkQEntry 7 1] = [mkQEntry 7 1] ∧
      heapify exSingletonQueue = .ok exSingletonQueue ∧
      popN 5 exSingletonQueue = .error .indexError :=
  ⟨rfl, rfl, rfl, rfl⟩

/-- C1: the live code emits the final report by iterating the priority
queue in heap-array order, with no sort by point-estimate (`main`
returns at line 325, before any remaining code): on the valid, well-keyed
heap `exQueue` the report lists `exStatsA` (point-estimate 5 B/s) before
`exStatsB` (point-estimate 100 B/s), so the report is not sorted by
point-estimate descending. -/
theorem final_report_not_rate_sorted :
    HeapProp exQueue ∧
      exQueue.all (fun e => e.1 == -e.2.rate_bps_upper) = true ∧
      reportOrder exQueue = [exStatsA, exStatsB] ∧
      exStatsA.rate_bps < exStatsB.rate_bps ∧
      ¬ List.Pairwise (fun a b => b.rate_bps ≤ a.rate_bps)
        (reportOrder exQueue) := by
  refine ⟨?_, by decide, rfl, by norm_num [exStatsA, exStatsB], ?_⟩
  · intro j hj h0
    simp only [exQueue, List.length_cons, List.length_nil, List.mem_range] at hj
    interval_cases j
    norm_num [keyAt, anc, exQueue, exStatsA, exStatsB]
  · intro hpw
    rw [reportOrder, exQueue] at hpw
    simp only [List.map_cons, List.map_nil, List.pairwise_cons] at hpw
    have := hpw.1 exStatsB (by simp)
    norm_num [exStatsA, exStatsB] at this

end Mirrorlist
